import Mathlib

/-!
Verification development for the terminal-ai-api repository.

The conversation-memory pipeline of `src/api/index.ts` (text chunker,
pseudo-embedder, conversation store save/retrieve, request handler) is
shallowly embedded below.  Strings are modelled as `List Char` (`Str`),
JavaScript string `.length` as `List.length`, and epoch-millisecond
timestamps as `ℕ`.  Floating-point arithmetic of the embedder is modelled
parametrically over an ordered field, instantiated at `ℝ` with the exact
trigonometric functions.
-/

namespace TerminalAI

/-- JavaScript strings, modelled as lists of characters. -/
abbrev Str := List Char

/-- JavaScript truthiness of a string: truthy iff non-empty. -/
def jsTruthy (s : Str) : Bool := !s.isEmpty

/-! ### Text chunker (`chunkText`, src/api/index.ts lines 207-256)

`text.split(/\n\n+/)`: the separator is a maximal run of two or more
newline characters; JavaScript `split` keeps empty tokens, including at
the start and end.  `sectionSplitGo` scans the characters keeping the
current (reversed) token `acc` and the number `pending` of newline
characters read but not yet classified: a run of `>= 2` newlines is a
separator, a shorter run belongs to the token. -/
def sectionSplitGo (acc : List Char) (pending : ℕ) : List Char → List (List Char)
| [] =>
  if 2 ≤ pending then [acc.reverse, []]
  else [(List.replicate pending '\n' ++ acc).reverse]
| c :: cs =>
  if c = '\n' then sectionSplitGo acc (pending + 1) cs
  else if 2 ≤ pending then acc.reverse :: sectionSplitGo [c] 0 cs
  else sectionSplitGo (c :: (List.replicate pending '\n' ++ acc)) 0 cs

/-- Model of `text.split(/\n\n+/)` of the chunker. -/
def splitSections (text : Str) : List Str := sectionSplitGo [] 0 text

/-- The whitespace class `\s` of the JavaScript sentence-split regex
(the common members; the claims do not depend on the exotic ones). -/
def isJsWs (c : Char) : Bool :=
  c = ' ' || c = '\n' || c = '\t' || c = '\r' || c = '\x0b' || c = '\x0c'

/-- A character that ends a sentence for the lookbehind `(?<=[.!?])`. -/
def isSentenceEnd (c : Char) : Bool := c = '.' || c = '!' || c = '?'

/-- Does the optional previous character satisfy the lookbehind? -/
def sentenceEndOpt : Option Char → Bool
| none => false
| some c => isSentenceEnd c

/-- Model of `section.split(/(?<=[.!?])\s+/)`: split at each maximal whitespace
run whose first character is preceded by `.`, `!` or `?`.  `acc` is the
reversed current token (so `acc.head?` is the character just before the
scanner); `sep = true` while consuming the whitespace run of a separator. -/
def sentenceSplitGo (acc : List Char) (sep : Bool) : List Char → List (List Char)
| [] => [acc.reverse]
| c :: cs =>
  if sep then
    if isJsWs c then sentenceSplitGo acc true cs
    else sentenceSplitGo [c] false cs
  else if isJsWs c && sentenceEndOpt acc.head? then
    acc.reverse :: sentenceSplitGo [] true cs
  else sentenceSplitGo (c :: acc) false cs

/-- Model of `section.split(/(?<=[.!?])\s+/)` of the chunker. -/
def splitSentences (s : Str) : List Str := sentenceSplitGo [] false s

/-- Inner sentence loop state transformer: `(chunks pushed so far,
sectionChunk)` updated by one sentence.  Mirrors
`if ((sectionChunk + sentence).length <= maxChunkSize) ... else ...`. -/
def sentenceStep (maxChunkSize : ℕ) (st : List Str × Str) (sentence : Str) :
    List Str × Str :=
  if st.2.length + sentence.length ≤ maxChunkSize then
    (st.1, st.2 ++ (if st.2.isEmpty then [] else [' ']) ++ sentence)
  else
    ((if st.2.isEmpty then st.1 else st.1 ++ [st.2]), sentence)

/-- Chunks pushed while splitting an oversized section by sentences,
including the final `if (sectionChunk) chunks.push(sectionChunk)`. -/
def sentenceChunks (maxChunkSize : ℕ) (sentences : List Str) : List Str :=
  let st := sentences.foldl (sentenceStep maxChunkSize) ([], [])
  if st.2.isEmpty then st.1 else st.1 ++ [st.2]

/-- Outer section loop state transformer: `(chunks, currentChunk)` updated
by one section.  Note two source quirks kept faithfully: the size check
`(currentChunk + section).length <= maxChunkSize` ignores the
two-character `"\n\n"` join added afterwards, and in the oversized-section
branch `currentChunk` is pushed but *not* cleared. -/
def sectionStep (maxChunkSize : ℕ) (st : List Str × Str) (sec : Str) :
    List Str × Str :=
  if st.2.length + sec.length ≤ maxChunkSize then
    (st.1, st.2 ++ (if st.2.isEmpty then [] else ['\n', '\n']) ++ sec)
  else
    let chunks := if st.2.isEmpty then st.1 else st.1 ++ [st.2]
    if maxChunkSize < sec.length then
      (chunks ++ sentenceChunks maxChunkSize (splitSentences sec), st.2)
    else
      (chunks, sec)

/-- Model of `chunkText(text, maxChunkSize = 512)` of src/api/index.ts. -/
def chunkText (text : Str) (maxChunkSize : ℕ := 512) : List Str :=
  let st := (splitSections text).foldl (sectionStep maxChunkSize) ([], [])
  if st.2.isEmpty then st.1 else st.1 ++ [st.2]


/-- Goodness of a chunk produced by the sentence-granularity loop:
non-empty, and within `maxChunkSize + 1` (the hidden one-character
space join) unless it is a single oversized sentence. -/
def GoodSentenceChunk (sentences : List Str) (maxChunkSize : ℕ) (c : Str) : Prop :=
  c ≠ [] ∧ (c.length ≤ maxChunkSize + 1 ∨ (c ∈ sentences ∧ maxChunkSize < c.length))

/-- Goodness of a chunk produced by `chunkText`: non-empty, and within
`maxChunkSize + 2` (the hidden two-character paragraph join) unless it is
a single oversized sentence of some section. -/
def GoodChunk (sections : List Str) (maxChunkSize : ℕ) (c : Str) : Prop :=
  c ≠ [] ∧ (c.length ≤ maxChunkSize + 2 ∨
    ∃ s ∈ sections, c ∈ splitSentences s ∧ maxChunkSize < c.length)


/-! ### Pseudo-embedder (`generateEmbedding`, src/api/index.ts lines 178-204)

The JavaScript code works on IEEE doubles; it is embedded parametrically
over a linear ordered field `K` together with the three per-index
coefficient sequences `sin(i)`, `cos(i)`, `tan(i % 1.5)` and a square-root
function, instantiated at `ℝ` with the exact functions below.
`charCodeAt` is modelled by `Char.toNat` (identical for all characters of
the basic multilingual plane). -/
def VECTOR_DIMENSION : ℕ := 1024

section Embedder

variable {K : Type} [LinearOrderedField K]

/-- One iteration of the character loop: at character index `i` with code
`c`, add `(c/255)*sin(i)` at `i % D`, `(c/510)*cos(i)` at `(pos+1) % D`
and `(c/510)*tan(i % 1.5)` at `(pos-1+D) % D`.  JavaScript computes
`(position - 1 + D) % D` in exact integer arithmetic; since
`0 ≤ position < D` this equals `(position + (D-1)) % D`, which avoids
truncated natural subtraction. -/
def embedStep (sinSeq cosSeq tanSeq : ℕ → K) (values : List K) (p : ℕ × Char) :
    List K :=
  let i := p.1
  let c : K := (p.2.toNat : K)
  let position := i % VECTOR_DIMENSION
  let v1 := values.set position (values.getD position 0 + c / 255 * sinSeq i)
  let nextPos := (position + 1) % VECTOR_DIMENSION
  let prevPos := (position + (VECTOR_DIMENSION - 1)) % VECTOR_DIMENSION
  let v2 := v1.set nextPos (v1.getD nextPos 0 + c / 510 * cosSeq i)
  v2.set prevPos (v2.getD prevPos 0 + c / 510 * tanSeq i)

/-- The raw accumulated vector before normalization: the character loop
run over the zero vector of length 1024. -/
def accumulateEmbedding (sinSeq cosSeq tanSeq : ℕ → K) (text : Str) : List K :=
  text.enum.foldl (embedStep sinSeq cosSeq tanSeq) (List.replicate VECTOR_DIMENSION 0)

/-- Model of `values.reduce((sum, val) => sum + val * val, 0)`. -/
def sumSq (v : List K) : K := (v.map fun x => x * x).sum

/-- Model of `generateEmbedding`: accumulate, then divide by the magnitude when it
is positive, else return the zero vector componentwise. -/
def generateEmbedding (sinSeq cosSeq tanSeq : ℕ → K) (sqrtFn : K → K)
    (text : Str) : List K :=
  let values := accumulateEmbedding sinSeq cosSeq tanSeq text
  let magnitude := sqrtFn (sumSq values)
  values.map fun val => if 0 < magnitude then val / magnitude else 0

end Embedder

/-- Model of `i % 1.5` of JavaScript for a natural number `i`: `1.5` is exactly
representable and `i % 1.5` has period 3 with values `0, 1, 0.5`. -/
noncomputable def jsMod15 (i : ℕ) : ℝ :=
  if i % 3 = 0 then 0 else if i % 3 = 1 then 1 else 1 / 2

/-- Model of `Math.sin(i)` at character index `i`. -/
noncomputable def embedSinR (i : ℕ) : ℝ := Real.sin i

/-- Model of `Math.cos(i)` at character index `i`. -/
noncomputable def embedCosR (i : ℕ) : ℝ := Real.cos i

/-- Model of `Math.tan(i % 1.5)` at character index `i`. -/
noncomputable def embedTanR (i : ℕ) : ℝ := Real.tan (jsMod15 i)

/-- The raw accumulated vector over `ℝ`. -/
noncomputable def rawEmbeddingR : Str → List ℝ :=
  accumulateEmbedding embedSinR embedCosR embedTanR

/-- Model of `generateEmbedding` over `ℝ` with the exact real functions. -/
noncomputable def generateEmbeddingR : Str → List ℝ :=
  generateEmbedding embedSinR embedCosR embedTanR Real.sqrt

/-! ### Conversation store (src/api/index.ts lines 95-126 and 259-373)

`saveConversation` builds one `PineconeVector` per chunk of the user and
assistant texts and upserts them in batches of 100;
`getConversationHistory` groups returned records by `(role, timestamp)`,
sorts each group by `chunkIndex`, joins the chunk contents with single
spaces and sorts the messages by timestamp.  The code keys its grouping
map by the string `role + "-" + timestamp` and parses it back with
`split("-")`/`parseInt`; as the role names contain no dash and the
timestamp is a natural number this key is in bijection with the pair
`(role, timestamp)` used here.  JavaScript's `Array.prototype.sort` is a
stable comparator sort, modelled by `List.insertionSort` with the
corresponding `≤` relation. -/

/-- Message roles. -/
inductive Role
| user
| assistant
deriving DecidableEq

/-- The role strings `"user"` / `"assistant"`. -/
def roleStr : Role → Str
| .user => ("user").toList
| .assistant => ("assistant").toList

/-- The `source` tag `"user-message"` / `"assistant-message"`. -/
def sourceTag : Role → Str
| .user => ("user-message").toList
| .assistant => ("assistant-message").toList

/-- Metadata of a stored vector record.  The TypeScript interface marks
`chunkIndex`, `totalChunks` and `source` optional, but `saveConversation`
always sets them. -/
structure PineconeMetadata where
  conversationId : Str
  role : Role
  content : Str
  timestamp : ℕ
  chunkIndex : ℕ
  totalChunks : ℕ
  source : Str
deriving DecidableEq

/-- A stored vector record over the scalar type `K` of the embedder. -/
structure PineconeVector (K : Type) where
  id : Str
  values : List K
  metadata : PineconeMetadata
deriving DecidableEq

/-- The record id `` `${conversationId}-${role}-${timestamp}-${i}` ``. -/
def vecId (cid : Str) (role : Role) (t i : ℕ) : Str :=
  cid ++ ('-' :: roleStr role) ++ ('-' :: (toString t).toList) ++
    ('-' :: (toString i).toList)

/-- The records built by one `for` loop of `saveConversation` for a turn:
one record per chunk of `chunkText text` (default limit 512), with
`chunkIndex i`, `totalChunks` the chunk count, and the turn's shared
`(conversationId, role, timestamp)`. -/
def turnVectors {K : Type} (embed : Str → List K) (cid : Str) (role : Role)
    (t : ℕ) (text : Str) : List (PineconeVector K) :=
  (chunkText text 512).enum.map fun p =>
    ⟨vecId cid role t p.1, embed p.2,
      ⟨cid, role, p.2, t, p.1, (chunkText text 512).length, sourceTag role⟩⟩

/-- All records built by `saveConversation`: the user turn stamped with
the current time `t`, then the assistant turn stamped with `t + 1`. -/
def buildVectors {K : Type} (embed : Str → List K) (cid userInput aiResponse : Str)
    (t : ℕ) : List (PineconeVector K) :=
  turnVectors embed cid .user t userInput ++
    turnVectors embed cid .assistant (t + 1) aiResponse

/-- Outcome of one `fetch` to the vector store: an HTTP status, or a
thrown network error. -/
inductive FetchResult
| ok (status : ℕ)
| thrown
deriving DecidableEq

/-- Model of `response.ok`: status in the range 200-299. -/
def statusOk (s : ℕ) : Bool := 200 ≤ s && s < 300

/-- Model of `pineconeUpsert` (lines 95-126): issues one fetch; a thrown error or
a non-ok status is caught and reported as `false`, otherwise `true`. -/
def pineconeUpsert {K : Type} (fetch : List (PineconeVector K) → FetchResult)
    (vectors : List (PineconeVector K)) : Bool :=
  match fetch vectors with
  | .ok s => if statusOk s then true else false
  | .thrown => false

/-- Model of `vectors.slice(i, i + 100)` batching of the upload loop, written with
a fuel argument (the list length) so that the recursion is structural. -/
def batchedGo {α : Type} : ℕ → List α → List (List α)
| _, [] => []
| 0, l => [l]
| fuel + 1, c :: l => ((c :: l).take 100) :: batchedGo fuel ((c :: l).drop 100)

/-- The batches of at most `BATCH_SIZE = 100` records uploaded in order. -/
def batched {α : Type} (l : List α) : List (List α) := batchedGo l.length l

/-- Model of `saveConversation` (lines 259-320) together with the ghost trace of
the boolean results of its upsert calls.  The code `await`s each
`pineconeUpsert` but discards the returned boolean, and nothing in the
`try` block can throw once the records are built, so the function
returns `true`; the trace records what each upsert call returned. -/
def saveConversationRun {K : Type} (embed : Str → List K)
    (fetch : List (PineconeVector K) → FetchResult) (cid userInput aiResponse : Str)
    (t : ℕ) : Bool × List Bool :=
  let vectors := buildVectors embed cid userInput aiResponse t
  let results :=
    if 0 < vectors.length then (batched vectors).map (pineconeUpsert fetch) else []
  (true, results)

/-- The boolean returned by `saveConversation`. -/
def saveConversation {K : Type} (embed : Str → List K)
    (fetch : List (PineconeVector K) → FetchResult) (cid userInput aiResponse : Str)
    (t : ℕ) : Bool :=
  (saveConversationRun embed fetch cid userInput aiResponse t).1

/-- The grouping key of `getConversationHistory`, modelling the string
key `` `${role}-${timestamp}` ``. -/
def metaKey (m : PineconeMetadata) : Role × ℕ := (m.role, m.timestamp)

/-- Insert one record into the insertion-ordered bucket list of the
grouping `Map`: append to the existing bucket of its key, or open a new
bucket at the end. -/
def addToGroups : List ((Role × ℕ) × List PineconeMetadata) → (Role × ℕ) →
    PineconeMetadata → List ((Role × ℕ) × List PineconeMetadata)
| [], k, m => [(k, [m])]
| g :: gs, k, m =>
  if g.1 = k then (g.1, g.2 ++ [m]) :: gs else g :: addToGroups gs k m

/-- The grouping `Map` of `getConversationHistory` as an
insertion-ordered association list. -/
def groupByKey (ms : List PineconeMetadata) :
    List ((Role × ℕ) × List PineconeMetadata) :=
  ms.foldl (fun acc m => addToGroups acc (metaKey m) m) []

/-- A reconstructed chat message. -/
structure ChatMessage where
  role : Role
  content : Str
  timestamp : ℕ
deriving DecidableEq

/-- Model of `chunks.map(chunk => chunk.content).join(" ")`. -/
def joinSpace (l : List Str) : Str := List.intercalate ([' ']) l

/-- The comparator `(a, b) => (a.chunkIndex || 0) - (b.chunkIndex || 0)`
(ascending, ties kept in insertion order by sort stability). -/
def chunkIndexLe (a b : PineconeMetadata) : Prop := a.chunkIndex ≤ b.chunkIndex

/-- The comparator `(a, b) => (a.timestamp || 0) - (b.timestamp || 0)`. -/
def timestampLe (a b : ChatMessage) : Prop := a.timestamp ≤ b.timestamp

instance : DecidableRel chunkIndexLe := fun a b => Nat.decLe a.chunkIndex b.chunkIndex

instance : DecidableRel timestampLe := fun a b => Nat.decLe a.timestamp b.timestamp

/-- Reconstruction pipeline of `getConversationHistory` (lines 335-368)
on the matched records: skip records with falsy role or content, group
by `(role, timestamp)`, sort each group by `chunkIndex` and join its
contents with single spaces, then sort the messages by timestamp. -/
def reconstructHistory (recs : List PineconeMetadata) : List ChatMessage :=
  let kept := recs.filter fun m => jsTruthy (roleStr m.role) && jsTruthy m.content
  let groups := groupByKey kept
  let messages := groups.map fun g =>
    ChatMessage.mk g.1.1 (joinSpace ((g.2.insertionSort chunkIndexLe).map
      fun m => m.content)) g.1.2
  messages.insertionSort timestampLe

/-- Model of `getConversationHistory` given the store's reply to the filtered
query (the metadata of the matches for the conversation id): an empty
match list yields `[]`, otherwise the reconstruction pipeline runs. -/
def getConversationHistory (query : Str → List PineconeMetadata) (cid : Str) :
    List ChatMessage :=
  let ms := query cid
  if ms.isEmpty then [] else reconstructHistory ms

/-- A computable scalar instance for evaluating the store on concrete
inputs: the coefficient sequences and square root are irrelevant to the
metadata-level claims, so the zero functions over `ℚ` are used. -/
def zeroSeqQ : ℕ → ℚ := fun _ => 0

/-- Zero square-root stub over `ℚ` for concrete evaluation. -/
def zeroSqrtQ : ℚ → ℚ := fun _ => 0

/-- The embedder instantiated computably over `ℚ`. -/
def embedQ : Str → List ℚ := generateEmbedding zeroSeqQ zeroSeqQ zeroSeqQ zeroSqrtQ

/-- The metadata of the records of one saved turn with chunk list
`chunks`: the projection of `turnVectors` to metadata. -/
def turnMeta (cid : Str) (r : Role) (t : ℕ) (chunks : List Str) :
    List PineconeMetadata :=
  chunks.enum.map fun p => ⟨cid, r, p.2, t, p.1, chunks.length, sourceTag r⟩

/-! ### Completions handler (src/api/index.ts lines 445-621)

Model of the POST branch of the main handler after method/CORS
dispatch: prompt resolution, 400 check, and classification of the
upstream completion call.  The main handler reads only `body.prompt`
(`const userPrompt = body.prompt`); the edge variants instead resolve
`body.prompt || body.messages?.[0]?.content` (`edgeResolvePrompt`). -/

/-- An element of the request body's `messages` array (only the field the
handlers read). -/
structure BodyMessage where
  content : Option Str
deriving DecidableEq

/-- The JSON request body fields the handlers read.  `none` models an
absent field. -/
structure RequestBody where
  prompt : Option Str
  messages : Option (List BodyMessage)
  mode : Option Str
  conversationId : Option Str
deriving DecidableEq

/-- JavaScript truthiness of an optional string field: truthy iff
present and non-empty. -/
def jsTruthyOpt : Option Str → Bool
| none => false
| some s => !s.isEmpty

/-- JavaScript `a || b` on optional string fields: the first operand if
truthy, else the second. -/
def jsOrOpt (a b : Option Str) : Option Str := if jsTruthyOpt a then a else b

/-- Model of `body.messages?.[0]?.content`. -/
def optHeadContent (b : RequestBody) : Option Str :=
  match b.messages with
  | none => none
  | some ms =>
    match ms.head? with
    | none => none
    | some m => m.content

/-- Prompt resolution of the edge handler variants:
`body.prompt || body.messages?.[0]?.content`. -/
def edgeResolvePrompt (b : RequestBody) : Option Str :=
  jsOrOpt b.prompt (optHeadContent b)

/-- Model of `body.conversationId || uuidv4()` with `freshId` the generated UUID. -/
def resolveConversationId (b : RequestBody) (freshId : Str) : Str :=
  match jsOrOpt b.conversationId (some freshId) with
  | some s => s
  | none => freshId

/-- Outcome of the outbound chat-completion fetch, as seen by the
handler: a parsed success payload, a non-ok HTTP status with body text,
an abort (timeout) error, or another thrown error. -/
inductive UpstreamOutcome (P : Type)
| success (payload : P)
| httpError (status : ℕ) (body : Str)
| abortError
| failure (message : Str)
deriving DecidableEq

/-- The handler's response: 400 `{error:"Prompt is required"}`, 200 with
the upstream payload plus `conversationId`, 504 `{error:"Request
timeout"}`, or 500 with error details. -/
inductive HandlerResult (P : Type)
| badRequest
| ok (payload : P) (conversationId : Str)
| timeout
| serverError (details : Str)
deriving DecidableEq

/-- The 500 details string `` `API Error (${status}): ${errorText}` ``. -/
def apiErrorDetails (status : ℕ) (body : Str) : Str :=
  ("API Error (").toList ++ (toString status).toList ++ ("): ").toList ++ body

/-- The POST branch of the main completions handler
(src/api/index.ts lines 468-620): resolve `conversationId`, answer 400
when `body.prompt` is falsy, otherwise classify the upstream outcome —
success yields 200 with the payload plus `conversationId`, an abort
yields 504, a non-ok status or other thrown error yields 500. -/
def mainHandlerPost (P : Type) (b : RequestBody) (upstream : UpstreamOutcome P)
    (freshId : Str) : HandlerResult P :=
  let conversationId := resolveConversationId b freshId
  if !(jsTruthyOpt b.prompt) then .badRequest
  else
    match upstream with
    | .success payload => .ok payload conversationId
    | .httpError s body => .serverError (apiErrorDetails s body)
    | .abortError => .timeout
    | .failure m => .serverError m

/-! ## Theorems -/

theorem sentenceFold_inv (max : ℕ) (sentences : List Str) :
    ∀ (l : List Str), (∀ s ∈ l, s ∈ sentences) →
    ∀ (st : List Str × Str),
      (∀ c ∈ st.1, GoodSentenceChunk sentences max c) →
      (st.2.length ≤ max + 1 ∨ (st.2 ∈ sentences ∧ max < st.2.length)) →
      (∀ c ∈ (l.foldl (sentenceStep max) st).1, GoodSentenceChunk sentences max c) ∧
      ((l.foldl (sentenceStep max) st).2.length ≤ max + 1 ∨
        ((l.foldl (sentenceStep max) st).2 ∈ sentences ∧
          max < (l.foldl (sentenceStep max) st).2.length)) := by
  intro l
  induction l with
  | nil => intro _ st h1 h2; exact ⟨h1, h2⟩
  | cons s rest ih =>
    intro hl st h1 h2
    have hs : s ∈ sentences := hl s (List.mem_cons_self s rest)
    have hrest : ∀ x ∈ rest, x ∈ sentences := fun x hx => hl x (List.mem_cons_of_mem s hx)
    rw [List.foldl_cons]
    refine ih hrest (sentenceStep max st s) ?_ ?_
    · intro c hc
      unfold sentenceStep at hc
      by_cases hfit : st.2.length + s.length ≤ max
      · rw [if_pos hfit] at hc
        exact h1 c hc
      · rw [if_neg hfit] at hc
        by_cases hemp : st.2.isEmpty
        · rw [if_pos hemp] at hc
          exact h1 c hc
        · rw [if_neg hemp] at hc
          rcases List.mem_append.mp hc with hmem | hmem
          · exact h1 c hmem
          · have hceq : c = st.2 := List.mem_singleton.mp hmem
            subst hceq
            refine ⟨fun hnil => hemp (by simp [hnil]), ?_⟩
            rcases h2 with hlen | ⟨hmem2, hbig⟩
            · exact Or.inl hlen
            · exact Or.inr ⟨hmem2, hbig⟩
    · unfold sentenceStep
      by_cases hfit : st.2.length + s.length ≤ max
      · rw [if_pos hfit]
        left
        simp only [List.length_append]
        by_cases hemp : st.2.isEmpty
        · rw [if_pos hemp]; simp only [List.length_nil]; omega
        · rw [if_neg hemp]; simp only [List.length_singleton]; omega
      · rw [if_neg hfit]
        show s.length ≤ max + 1 ∨ (s ∈ sentences ∧ max < s.length)
        by_cases hbig : s.length ≤ max + 1
        · exact Or.inl hbig
        · exact Or.inr ⟨hs, by omega⟩

theorem sentenceChunks_spec (max : ℕ) (sentences : List Str) :
    ∀ c ∈ sentenceChunks max sentences, GoodSentenceChunk sentences max c := by
  intro c hc
  unfold sentenceChunks at hc
  have h := sentenceFold_inv max sentences sentences (fun _ hx => hx) ([], [])
    (by intro c hc; simp at hc) (Or.inl (by simp))
  set st := sentences.foldl (sentenceStep max) ([], []) with hst
  by_cases hemp : st.2.isEmpty
  · simp only [← hst, hemp, if_pos] at hc
    exact h.1 c hc
  · simp only [← hst, hemp] at hc
    rw [if_neg (by simp [hemp])] at hc
    rcases List.mem_append.mp hc with hmem | hmem
    · exact h.1 c hmem
    · have hceq : c = st.2 := List.mem_singleton.mp hmem
      subst hceq
      exact ⟨fun hnil => (by simp [hnil] at hemp), h.2⟩

theorem sectionFold_inv (max : ℕ) (sections : List Str) :
    ∀ (l : List Str), (∀ s ∈ l, s ∈ sections) →
    ∀ (st : List Str × Str),
      (∀ c ∈ st.1, GoodChunk sections max c) →
      st.2.length ≤ max + 2 →
      (∀ c ∈ (l.foldl (sectionStep max) st).1, GoodChunk sections max c) ∧
      (l.foldl (sectionStep max) st).2.length ≤ max + 2 := by
  intro l
  induction l with
  | nil => intro _ st h1 h2; exact ⟨h1, h2⟩
  | cons s rest ih =>
    intro hl st h1 h2
    have hs : s ∈ sections := hl s (List.mem_cons_self s rest)
    have hrest : ∀ x ∈ rest, x ∈ sections := fun x hx => hl x (List.mem_cons_of_mem s hx)
    rw [List.foldl_cons]
    refine ih hrest (sectionStep max st s) ?_ ?_
    · intro c hc
      unfold sectionStep at hc
      by_cases hfit : st.2.length + s.length ≤ max
      · rw [if_pos hfit] at hc
        exact h1 c hc
      · rw [if_neg hfit] at hc
        by_cases hbig : max < s.length
        · rw [if_pos hbig] at hc
          rcases List.mem_append.mp hc with hmem | hmem
          · by_cases hemp : st.2.isEmpty
            · rw [if_pos hemp] at hmem
              exact h1 c hmem
            · rw [if_neg hemp] at hmem
              rcases List.mem_append.mp hmem with hmem2 | hmem2
              · exact h1 c hmem2
              · have hceq : c = st.2 := List.mem_singleton.mp hmem2
                subst hceq
                exact ⟨fun hnil => hemp (by simp [hnil]), Or.inl h2⟩
          · have hg := sentenceChunks_spec max (splitSentences s) c hmem
            refine ⟨hg.1, ?_⟩
            rcases hg.2 with hlen | ⟨hmem2, hbig2⟩
            · exact Or.inl (by omega)
            · exact Or.inr ⟨s, hs, hmem2, hbig2⟩
        · rw [if_neg hbig] at hc
          by_cases hemp : st.2.isEmpty
          · rw [if_pos hemp] at hc
            exact h1 c hc
          · rw [if_neg hemp] at hc
            rcases List.mem_append.mp hc with hmem | hmem
            · exact h1 c hmem
            · have hceq : c = st.2 := List.mem_singleton.mp hmem
              subst hceq
              exact ⟨fun hnil => hemp (by simp [hnil]), Or.inl h2⟩
    · unfold sectionStep
      by_cases hfit : st.2.length + s.length ≤ max
      · rw [if_pos hfit]
        simp only [List.length_append]
        by_cases hemp : st.2.isEmpty
        · rw [if_pos hemp]; simp only [List.length_nil]; omega
        · rw [if_neg hemp]; simp; omega
      · rw [if_neg hfit]
        by_cases hbig : max < s.length
        · rw [if_pos hbig]; exact h2
        · rw [if_neg hbig]
          show s.length ≤ max + 2
          omega

theorem chunkText_spec (text : Str) (max : ℕ) :
    ∀ c ∈ chunkText text max, GoodChunk (splitSections text) max c := by
  intro c hc
  unfold chunkText at hc
  have h := sectionFold_inv max (splitSections text) (splitSections text)
    (fun _ hx => hx) ([], []) (by intro c hc; simp at hc) (by simp)
  set st := (splitSections text).foldl (sectionStep max) ([], []) with hst
  by_cases hemp : st.2.isEmpty
  · simp only [← hst, hemp, if_pos] at hc
    exact h.1 c hc
  · simp only [← hst, hemp] at hc
    rw [if_neg (by simp [hemp])] at hc
    rcases List.mem_append.mp hc with hmem | hmem
    · exact h.1 c hmem
    · have hceq : c = st.2 := List.mem_singleton.mp hmem
      subst hceq
      exact ⟨fun hnil => (by simp [hnil] at hemp), Or.inl h.2⟩


section EmbedderLemmas

variable {K : Type} [LinearOrderedField K]

theorem embedStep_length (sinSeq cosSeq tanSeq : ℕ → K) (values : List K)
    (p : ℕ × Char) :
    (embedStep sinSeq cosSeq tanSeq values p).length = values.length := by
  simp [embedStep]

theorem accumulateEmbedding_length (sinSeq cosSeq tanSeq : ℕ → K) (text : Str) :
    (accumulateEmbedding sinSeq cosSeq tanSeq text).length = VECTOR_DIMENSION := by
  unfold accumulateEmbedding
  have h : ∀ (l : List (ℕ × Char)) (init : List K),
      (l.foldl (embedStep sinSeq cosSeq tanSeq) init).length = init.length := by
    intro l
    induction l with
    | nil => intro init; rfl
    | cons p rest ih =>
      intro init
      rw [List.foldl_cons, ih, embedStep_length]
  rw [h, List.length_replicate]

theorem sumSq_nil : sumSq ([] : List K) = 0 := rfl

theorem sumSq_cons (x : K) (v : List K) : sumSq (x :: v) = x * x + sumSq v := by
  simp [sumSq]

theorem sumSq_nonneg (v : List K) : 0 ≤ sumSq v := by
  induction v with
  | nil => simp [sumSq_nil]
  | cons x v ih =>
    rw [sumSq_cons]
    have := mul_self_nonneg x
    linarith

theorem sumSq_replicate_zero (n : ℕ) : sumSq (List.replicate n (0 : K)) = 0 := by
  induction n with
  | zero => rfl
  | succ n ih => rw [List.replicate_succ, sumSq_cons, ih]; ring

theorem sumSq_map_div (v : List K) (m : K) (hm : m ≠ 0) :
    sumSq (v.map fun x => x / m) = sumSq v / (m * m) := by
  induction v with
  | nil => simp [sumSq_nil]
  | cons x v ih =>
    rw [List.map_cons, sumSq_cons, sumSq_cons, ih]
    field_simp

theorem sumSq_set (v : List K) (i : ℕ) (x : K) (h : i < v.length) :
    sumSq (v.set i x) = sumSq v - v.getD i 0 * v.getD i 0 + x * x := by
  induction v generalizing i with
  | nil => simp at h
  | cons a v ih =>
    cases i with
    | zero =>
      rw [List.set_cons_zero, sumSq_cons, sumSq_cons]
      simp [List.getD_cons_zero]
      ring
    | succ i =>
      rw [List.set_cons_succ, sumSq_cons, sumSq_cons,
        ih i (by simpa using h), List.getD_cons_succ]
      ring

theorem getD_zero_replicate (n i : ℕ) : (List.replicate n (0 : K)).getD i 0 = 0 := by
  rcases lt_or_ge i n with h | h
  · rw [List.getD_eq_getElem?_getD, List.getElem?_replicate, if_pos h]
    rfl
  · rw [List.getD_eq_getElem?_getD, List.getElem?_replicate, if_neg (by omega)]
    rfl

theorem getD_set_ne (v : List K) (i j : ℕ) (x : K) (hij : i ≠ j) :
    (v.set i x).getD j 0 = v.getD j 0 := by
  rw [List.getD_eq_getElem?_getD, List.getElem?_set_ne hij,
    ← List.getD_eq_getElem?_getD]

/-- Unfolding of the `ℝ` instance of `generateEmbedding`. -/
theorem generateEmbeddingR_eq (t : Str) :
    generateEmbeddingR t = (rawEmbeddingR t).map fun val =>
      if 0 < Real.sqrt (sumSq (rawEmbeddingR t)) then
        val / Real.sqrt (sumSq (rawEmbeddingR t)) else 0 := rfl

end EmbedderLemmas

/-- C7: `generateEmbedding` returns a vector of length exactly 1024, is
deterministic, and whenever the raw trigonometric accumulation is
non-zero the returned vector has L2 norm 1 (exact-arithmetic model of the
floating-point code). -/
theorem generateEmbedding_spec (t : Str) :
    (generateEmbeddingR t).length = VECTOR_DIMENSION ∧
    (∀ t', t = t' → generateEmbeddingR t = generateEmbeddingR t') ∧
    (sumSq (rawEmbeddingR t) ≠ 0 →
      Real.sqrt (sumSq (generateEmbeddingR t)) = 1) := by
  refine ⟨?_, fun t' h => by rw [h], ?_⟩
  · rw [generateEmbeddingR_eq, List.length_map]
    exact accumulateEmbedding_length embedSinR embedCosR embedTanR t
  · intro hS
    have hpos : 0 < sumSq (rawEmbeddingR t) :=
      lt_of_le_of_ne (sumSq_nonneg _) (Ne.symm hS)
    have hm : 0 < Real.sqrt (sumSq (rawEmbeddingR t)) := Real.sqrt_pos.mpr hpos
    have hmap : generateEmbeddingR t = (rawEmbeddingR t).map
        fun val => val / Real.sqrt (sumSq (rawEmbeddingR t)) := by
      rw [generateEmbeddingR_eq]
      simp only [if_pos hm]
    rw [hmap, sumSq_map_div _ _ hm.ne',
      Real.mul_self_sqrt hpos.le, div_self hS, Real.sqrt_one]

/-- Witness for C7 at the one-character text `"A"`: the raw accumulation
is non-zero (its only non-zero entry is `(65/510)·cos 0` at index 1), so
the theorem applies. -/
theorem generateEmbedding_spec_witness :
    sumSq (rawEmbeddingR (['A'])) ≠ 0 ∧
    (generateEmbeddingR (['A'])).length = VECTOR_DIMENSION ∧
    generateEmbeddingR (['A']) = generateEmbeddingR (['A']) ∧
    Real.sqrt (sumSq (generateEmbeddingR (['A']))) = 1 := by
  have hR : (List.replicate VECTOR_DIMENSION (0 : ℝ)).length = VECTOR_DIMENSION :=
    List.length_replicate VECTOR_DIMENSION 0
  have hS : sumSq (rawEmbeddingR (['A'])) ≠ 0 := by
    have h0 : rawEmbeddingR (['A']) =
        embedStep embedSinR embedCosR embedTanR
          (List.replicate VECTOR_DIMENSION 0) (0, 'A') := rfl
    have hsin : embedSinR 0 = 0 := by simp [embedSinR]
    have hcos : embedCosR 0 = 1 := by simp [embedCosR]
    have htan : embedTanR 0 = 0 := by simp [embedTanR, jsMod15]
    have hcodeNat : ('A').toNat = 65 := rfl
    have hcode : (('A').toNat : ℝ) = 65 := by rw [hcodeNat]; norm_num
    rw [h0]
    unfold embedStep
    simp only [hsin, hcos, htan, hcode, mul_zero, mul_one, add_zero]
    norm_num [VECTOR_DIMENSION, getD_zero_replicate]
    rw [sumSq_set _ 1023 _ (by rw [List.length_set, List.length_replicate]; norm_num),
      getD_set_ne _ 1 1023 _ (by norm_num),
      sumSq_set _ 1 _ (by rw [List.length_replicate]; norm_num),
      getD_zero_replicate, getD_zero_replicate, sumSq_replicate_zero]
    norm_num
  exact ⟨hS, (generateEmbedding_spec (['A'])).1,
    (generateEmbedding_spec (['A'])).2.1 (['A']) rfl,
    (generateEmbedding_spec (['A'])).2.2 hS⟩

/-- C9: on the empty string, and on any input whose raw accumulated
vector is all zeros, `generateEmbedding` returns the all-zero vector of
length 1024, whose L2 norm is 0 and not 1. -/
theorem generateEmbedding_zero_spec :
    rawEmbeddingR [] = List.replicate VECTOR_DIMENSION 0 ∧
    ∀ t : Str, rawEmbeddingR t = List.replicate VECTOR_DIMENSION 0 →
      generateEmbeddingR t = List.replicate VECTOR_DIMENSION 0 ∧
      Real.sqrt (sumSq (generateEmbeddingR t)) = 0 ∧
      Real.sqrt (sumSq (generateEmbeddingR t)) ≠ 1 := by
  refine ⟨rfl, fun t ht => ?_⟩
  have hzero : sumSq (rawEmbeddingR t) = 0 := by
    rw [ht]; exact sumSq_replicate_zero _
  have hemb : generateEmbeddingR t = List.replicate VECTOR_DIMENSION 0 := by
    rw [generateEmbeddingR_eq, hzero, Real.sqrt_zero, ht]
    simp
  refine ⟨hemb, ?_, ?_⟩
  · rw [hemb, sumSq_replicate_zero, Real.sqrt_zero]
  · rw [hemb, sumSq_replicate_zero, Real.sqrt_zero]
    norm_num

/-- Witness for C9 at the empty string, whose raw accumulation is the
zero vector by computation. -/
theorem generateEmbedding_zero_spec_witness :
    generateEmbeddingR [] = List.replicate VECTOR_DIMENSION 0 ∧
    Real.sqrt (sumSq (generateEmbeddingR [])) = 0 ∧
    Real.sqrt (sumSq (generateEmbeddingR [])) ≠ 1 :=
  generateEmbedding_zero_spec.2 [] rfl

/-- C8: `chunkText` on the empty string returns the empty sequence. -/
theorem chunkText_empty (maxChunkSize : ℕ) : chunkText [] maxChunkSize = [] := by
  simp [chunkText, splitSections, sectionSplitGo, sectionStep]

/-- C2 counterexample: with `maxChunkSize = 10`, the text
`"aaaaa\n\nbbbbb"` produces the single chunk `"aaaaa\n\nbbbbb"` of
length 12 — over the limit although it is not a single oversized
sentence (the size check ignores the inserted two-character join). -/
theorem chunkText_maxsize_counterexample :
    ¬ (∀ c ∈ chunkText ("aaaaa\n\nbbbbb".toList) 10,
        c.length ≤ 10 ∨
          ∃ s ∈ splitSections ("aaaaa\n\nbbbbb".toList),
            c ∈ splitSentences s ∧ 10 < c.length) := by
  decide

/-- C2 (amended): every chunk has length at most `maxChunkSize + 2` (the
greedy size check ignores the two-character paragraph join and the
one-character sentence join inserted after the check), except a chunk
that is a single sentence of some section whose own length exceeds
`maxChunkSize`, which is emitted whole. -/
theorem chunkText_size_bound (text : Str) (maxChunkSize : ℕ) :
    ∀ c ∈ chunkText text maxChunkSize,
      c.length ≤ maxChunkSize + 2 ∨
        ∃ s ∈ splitSections text, c ∈ splitSentences s ∧ maxChunkSize < c.length :=
  fun c hc => (chunkText_spec text maxChunkSize c hc).2

/-- Witness for C2 at the text `"Hello"` with the default limit. -/
theorem chunkText_size_bound_witness :
    (("Hello".toList) ∈ chunkText ("Hello".toList) 512) ∧
    (("Hello".toList).length ≤ 512 + 2 ∨
      ∃ s ∈ splitSections ("Hello".toList),
        ("Hello".toList) ∈ splitSentences s ∧ 512 < ("Hello".toList).length) :=
  ⟨by decide, chunkText_size_bound ("Hello".toList) 512 ("Hello".toList) (by decide)⟩

/-- C10: every chunk emitted by `chunkText` is a non-empty string: all
pushes are guarded by emptiness checks. -/
theorem chunkText_chunks_nonempty (text : Str) (maxChunkSize : ℕ) :
    ∀ c ∈ chunkText text maxChunkSize, c ≠ [] :=
  fun c hc => (chunkText_spec text maxChunkSize c hc).1

/-- Witness for C10 at the text `"Hi"`. -/
theorem chunkText_chunks_nonempty_witness :
    (("Hi".toList) ∈ chunkText ("Hi".toList) 512) ∧ ("Hi".toList) ≠ ([] : Str) :=
  ⟨by decide, chunkText_chunks_nonempty ("Hi".toList) 512 ("Hi".toList) (by decide)⟩

section StoreLemmas

variable {K : Type}

theorem turnVectors_map_chunkIndex (embed : Str → List K) (cid : Str) (r : Role)
    (t : ℕ) (text : Str) :
    (turnVectors embed cid r t text).map (fun v => v.metadata.chunkIndex) =
      List.range (chunkText text 512).length := by
  simp [turnVectors, List.map_map, Function.comp_def]

theorem turnVectors_map_totalChunks (embed : Str → List K) (cid : Str) (r : Role)
    (t : ℕ) (text : Str) :
    (turnVectors embed cid r t text).map (fun v => v.metadata.totalChunks) =
      List.replicate (chunkText text 512).length (chunkText text 512).length := by
  simp [turnVectors, List.map_map, Function.comp_def, List.map_const']

theorem turnVectors_map_triple (embed : Str → List K) (cid : Str) (r : Role)
    (t : ℕ) (text : Str) :
    (turnVectors embed cid r t text).map
        (fun v => (v.metadata.conversationId, v.metadata.role, v.metadata.timestamp)) =
      List.replicate (chunkText text 512).length (cid, r, t) := by
  simp [turnVectors, List.map_map, Function.comp_def, List.map_const']

theorem turnVectors_role (embed : Str → List K) (cid : Str) (r : Role) (t : ℕ)
    (text : Str) : ∀ v ∈ turnVectors embed cid r t text, v.metadata.role = r := by
  intro v hv
  obtain ⟨p, _, rfl⟩ := List.mem_map.mp hv
  rfl

theorem filter_user_buildVectors (embed : Str → List K) (cid u a : Str) (t : ℕ) :
    (buildVectors embed cid u a t).filter (fun v => v.metadata.role == Role.user) =
      turnVectors embed cid .user t u := by
  unfold buildVectors
  rw [List.filter_append]
  rw [List.filter_eq_self.mpr, List.filter_eq_nil_iff.mpr, List.append_nil]
  · intro v hv
    rw [turnVectors_role embed cid .assistant (t + 1) a v hv]
    decide
  · intro v hv
    rw [turnVectors_role embed cid .user t u v hv]
    decide

theorem filter_assistant_buildVectors (embed : Str → List K) (cid u a : Str) (t : ℕ) :
    (buildVectors embed cid u a t).filter (fun v => v.metadata.role == Role.assistant) =
      turnVectors embed cid .assistant (t + 1) a := by
  unfold buildVectors
  rw [List.filter_append]
  rw [List.filter_eq_nil_iff.mpr, List.filter_eq_self.mpr, List.nil_append]
  · intro v hv
    rw [turnVectors_role embed cid .assistant (t + 1) a v hv]
    decide
  · intro v hv
    rw [turnVectors_role embed cid .user t u v hv]
    decide

end StoreLemmas

/-- C5: every record of a turn carries `totalChunks` equal to the number
of chunks of that turn's text, the turn's `chunkIndex` values are exactly
`0, 1, ..., totalChunks - 1` in order, and all records of a turn share the
same `(conversationId, role, timestamp)` triple (`t` for the user turn,
`t + 1` for the assistant turn). -/
theorem buildVectors_turn_invariants {K : Type} (embed : Str → List K)
    (cid u a : Str) (t : ℕ) :
    ((buildVectors embed cid u a t).filter
        (fun v => v.metadata.role == Role.user)).map
        (fun v => v.metadata.chunkIndex) = List.range (chunkText u 512).length ∧
    ((buildVectors embed cid u a t).filter
        (fun v => v.metadata.role == Role.user)).map
        (fun v => v.metadata.totalChunks) =
      List.replicate (chunkText u 512).length (chunkText u 512).length ∧
    ((buildVectors embed cid u a t).filter
        (fun v => v.metadata.role == Role.user)).map
        (fun v => (v.metadata.conversationId, v.metadata.role, v.metadata.timestamp)) =
      List.replicate (chunkText u 512).length (cid, Role.user, t) ∧
    ((buildVectors embed cid u a t).filter
        (fun v => v.metadata.role == Role.assistant)).map
        (fun v => v.metadata.chunkIndex) = List.range (chunkText a 512).length ∧
    ((buildVectors embed cid u a t).filter
        (fun v => v.metadata.role == Role.assistant)).map
        (fun v => v.metadata.totalChunks) =
      List.replicate (chunkText a 512).length (chunkText a 512).length ∧
    ((buildVectors embed cid u a t).filter
        (fun v => v.metadata.role == Role.assistant)).map
        (fun v => (v.metadata.conversationId, v.metadata.role, v.metadata.timestamp)) =
      List.replicate (chunkText a 512).length (cid, Role.assistant, t + 1) := by
  rw [filter_user_buildVectors, filter_assistant_buildVectors]
  exact ⟨turnVectors_map_chunkIndex .., turnVectors_map_totalChunks ..,
    turnVectors_map_triple .., turnVectors_map_chunkIndex ..,
    turnVectors_map_totalChunks .., turnVectors_map_triple ..⟩

/-- C1 counterexample: against a store whose every upsert fetch throws,
saving the turn `("hi", "yo")` makes one batched upsert call which
returns `false`, yet `saveConversation` returns `true` — the boolean
result of `pineconeUpsert` is discarded. -/
theorem saveConversation_upsert_failure_counterexample :
    saveConversation embedQ (fun _ => FetchResult.thrown) ("c".toList)
        ("hi".toList) ("yo".toList) 0 = true ∧
    (saveConversationRun embedQ (fun _ => FetchResult.thrown) ("c".toList)
        ("hi".toList) ("yo".toList) 0).2 = [false] := by
  exact ⟨rfl, by decide⟩

/-- C1 (amended): `saveConversation` returns `true` for every input and
every behaviour of the store: upsert failures are absorbed inside
`pineconeUpsert` (which returns `false`) and that boolean is ignored, and
no stage of the `try` block can throw once the records are built, so the
`catch` branch returning `false` is never taken. -/
theorem saveConversation_always_true {K : Type} (embed : Str → List K)
    (fetch : List (PineconeVector K) → FetchResult) (cid u a : Str) (t : ℕ) :
    saveConversation embed fetch cid u a t = true := rfl

section GroupingLemmas

theorem addToGroups_newKey (gs : List ((Role × ℕ) × List PineconeMetadata))
    (k : Role × ℕ) (m : PineconeMetadata) (h : k ∉ gs.map Prod.fst) :
    addToGroups gs k m = gs ++ [(k, [m])] := by
  induction gs with
  | nil => rfl
  | cons g gs ih =>
    rw [List.map_cons, List.mem_cons] at h
    push_neg at h
    unfold addToGroups
    rw [if_neg (fun he => h.1 he.symm), ih h.2, List.cons_append]

theorem addToGroups_existing (gs₁ gs₂ : List ((Role × ℕ) × List PineconeMetadata))
    (k : Role × ℕ) (g : List PineconeMetadata) (m : PineconeMetadata)
    (h : k ∉ gs₁.map Prod.fst) :
    addToGroups (gs₁ ++ (k, g) :: gs₂) k m = gs₁ ++ (k, g ++ [m]) :: gs₂ := by
  induction gs₁ with
  | nil => simp [addToGroups]
  | cons p gs₁ ih =>
    rw [List.map_cons, List.mem_cons] at h
    push_neg at h
    rw [List.cons_append, List.cons_append]
    unfold addToGroups
    rw [if_neg (fun he => h.1 he.symm), ih h.2]

theorem fold_uniform_block (l : List PineconeMetadata) (k : Role × ℕ)
    (huni : ∀ m ∈ l, metaKey m = k) :
    ∀ (gs₁ gs₂ : List ((Role × ℕ) × List PineconeMetadata))
      (g : List PineconeMetadata), k ∉ gs₁.map Prod.fst →
      l.foldl (fun acc m => addToGroups acc (metaKey m) m) (gs₁ ++ (k, g) :: gs₂) =
        gs₁ ++ (k, g ++ l) :: gs₂ := by
  induction l with
  | nil => intro gs₁ gs₂ g _; simp
  | cons m l ih =>
    intro gs₁ gs₂ g h
    have hk : metaKey m = k := huni m (List.mem_cons_self m l)
    have huni' : ∀ x ∈ l, metaKey x = k :=
      fun x hx => huni x (List.mem_cons_of_mem m hx)
    rw [List.foldl_cons, hk, addToGroups_existing gs₁ gs₂ k g m h,
      ih huni' gs₁ gs₂ (g ++ [m]) h, List.append_assoc, List.singleton_append]

theorem fold_blocks (bs : List ((Role × ℕ) × List PineconeMetadata)) :
    ∀ (acc : List ((Role × ℕ) × List PineconeMetadata)),
      (∀ p ∈ bs, ∀ m ∈ p.2, metaKey m = p.1) →
      (∀ p ∈ bs, p.2 ≠ []) →
      (acc.map Prod.fst ++ bs.map Prod.fst).Nodup →
      ((bs.map Prod.snd).flatten).foldl
          (fun a m => addToGroups a (metaKey m) m) acc = acc ++ bs := by
  induction bs with
  | nil => intro acc _ _ _; simp
  | cons b bs ih =>
    intro acc huni hne hnodup
    obtain ⟨k, blk⟩ := b
    obtain ⟨m, blk', rfl⟩ : ∃ m blk', blk = m :: blk' := by
      cases blk with
      | nil => exact absurd rfl (hne (k, []) (List.mem_cons_self _ _))
      | cons m blk' => exact ⟨m, blk', rfl⟩
    have hdisj := (List.nodup_append.mp hnodup).2.2
    have hkacc : k ∉ acc.map Prod.fst := by
      intro hmem
      exact hdisj hmem (by simp)
    have hk : metaKey m = k := huni (k, m :: blk') (List.mem_cons_self _ _) m
      (List.mem_cons_self m blk')
    have huniblk : ∀ x ∈ m :: blk', metaKey x = k :=
      huni (k, m :: blk') (List.mem_cons_self _ _)
    rw [List.map_cons, List.flatten_cons, List.foldl_append, List.foldl_cons, hk,
      addToGroups_newKey acc k m hkacc]
    have hblk : blk'.foldl (fun a x => addToGroups a (metaKey x) x)
        (acc ++ [(k, [m])]) = acc ++ [(k, m :: blk')] := by
      have := fold_uniform_block blk' k
        (fun x hx => huniblk x (List.mem_cons_of_mem m hx)) acc [] [m] hkacc
      simpa using this
    rw [hblk]
    have hnodup' : ((acc ++ [(k, m :: blk')]).map Prod.fst ++ bs.map Prod.fst).Nodup := by
      rw [List.map_append]
      simpa [List.append_assoc] using hnodup
    rw [ih (acc ++ [(k, m :: blk')])
      (fun p hp => huni p (List.mem_cons_of_mem _ hp))
      (fun p hp => hne p (List.mem_cons_of_mem _ hp)) hnodup',
      List.append_assoc, List.singleton_append]

theorem groupByKey_blocks (bs : List ((Role × ℕ) × List PineconeMetadata))
    (huni : ∀ p ∈ bs, ∀ m ∈ p.2, metaKey m = p.1)
    (hne : ∀ p ∈ bs, p.2 ≠ [])
    (hnodup : (bs.map Prod.fst).Nodup) :
    groupByKey ((bs.map Prod.snd).flatten) = bs := by
  unfold groupByKey
  rw [fold_blocks bs [] huni hne (by simpa using hnodup), List.nil_append]

end GroupingLemmas

section TurnMetaLemmas

theorem turnMeta_key (cid : Str) (r : Role) (t : ℕ) (chunks : List Str) :
    ∀ m ∈ turnMeta cid r t chunks, metaKey m = (r, t) := by
  intro m hm
  obtain ⟨p, _, rfl⟩ := List.mem_map.mp hm
  rfl

theorem turnMeta_length (cid : Str) (r : Role) (t : ℕ) (chunks : List Str) :
    (turnMeta cid r t chunks).length = chunks.length := by
  simp [turnMeta]

theorem turnMeta_ne_nil (cid : Str) (r : Role) (t : ℕ) (chunks : List Str)
    (h : chunks ≠ []) : turnMeta cid r t chunks ≠ [] := by
  intro he
  apply h
  have := turnMeta_length cid r t chunks
  rw [he] at this
  exact List.length_eq_zero.mp this.symm

theorem turnMeta_map_content (cid : Str) (r : Role) (t : ℕ) (chunks : List Str) :
    (turnMeta cid r t chunks).map (fun m => m.content) = chunks := by
  simp [turnMeta, List.map_map, Function.comp_def]

theorem turnMeta_content_mem (cid : Str) (r : Role) (t : ℕ) (chunks : List Str) :
    ∀ m ∈ turnMeta cid r t chunks, m.content ∈ chunks := by
  intro m hm
  have : m.content ∈ (turnMeta cid r t chunks).map (fun m => m.content) :=
    List.mem_map.mpr ⟨m, hm, rfl⟩
  rwa [turnMeta_map_content] at this

theorem turnMeta_sorted (cid : Str) (r : Role) (t : ℕ) (chunks : List Str) :
    List.Sorted chunkIndexLe (turnMeta cid r t chunks) := by
  unfold turnMeta List.Sorted
  rw [List.pairwise_map]
  have h1 : (chunks.enum.map Prod.fst).Pairwise (· < ·) := by
    rw [List.enum_map_fst]
    exact List.pairwise_lt_range chunks.length
  have h2 : chunks.enum.Pairwise (fun p q => p.1 < q.1) := List.pairwise_map.mp h1
  exact h2.imp fun h => le_of_lt h

theorem turnMeta_insertionSort (cid : Str) (r : Role) (t : ℕ) (chunks : List Str) :
    (turnMeta cid r t chunks).insertionSort chunkIndexLe = turnMeta cid r t chunks :=
  (turnMeta_sorted cid r t chunks).insertionSort_eq

theorem buildVectors_map_metadata {K : Type} (embed : Str → List K)
    (cid u a : Str) (t : ℕ) :
    (buildVectors embed cid u a t).map (fun v => v.metadata) =
      turnMeta cid .user t (chunkText u 512) ++
        turnMeta cid .assistant (t + 1) (chunkText a 512) := by
  simp [buildVectors, turnVectors, turnMeta, List.map_map, Function.comp_def]

end TurnMetaLemmas

/-- Reconstruction of a flattened sequence of saved turns: if the turn
blocks are non-empty with non-empty chunk contents, have pairwise
distinct `(role, timestamp)` keys, and appear in non-decreasing timestamp
order, then `reconstructHistory` returns exactly one message per turn in
order, with the turn's chunks joined by single spaces. -/
theorem reconstructHistory_turnBlocks (cid : Str)
    (bs : List ((Role × ℕ) × List Str))
    (hne : ∀ b ∈ bs, b.2 ≠ [])
    (hcne : ∀ b ∈ bs, ∀ c ∈ b.2, c ≠ [])
    (hnodup : (bs.map Prod.fst).Nodup)
    (hsorted : (bs.map fun b => b.1.2).Pairwise (· ≤ ·)) :
    reconstructHistory ((bs.map fun b => turnMeta cid b.1.1 b.1.2 b.2).flatten) =
      bs.map fun b => ChatMessage.mk b.1.1 (joinSpace b.2) b.1.2 := by
  unfold reconstructHistory
  simp only []
  have hfilter : ((bs.map fun b => turnMeta cid b.1.1 b.1.2 b.2).flatten).filter
      (fun m => jsTruthy (roleStr m.role) && jsTruthy m.content) =
      (bs.map fun b => turnMeta cid b.1.1 b.1.2 b.2).flatten := by
    rw [List.filter_eq_self]
    intro m hm
    obtain ⟨l, hl, hml⟩ := List.mem_flatten.mp hm
    obtain ⟨b, hb, rfl⟩ := List.mem_map.mp hl
    obtain ⟨p, hp, rfl⟩ := List.mem_map.mp hml
    have hcontent : p.2 ∈ b.2 := by
      have : p.2 ∈ b.2.enum.map Prod.snd := List.mem_map.mpr ⟨p, hp, rfl⟩
      rwa [List.enum_map_snd] at this
    have hcne' : p.2 ≠ [] := hcne b hb p.2 hcontent
    cases hrole : b.1.1 <;>
      simp [jsTruthy, roleStr, List.isEmpty_eq_true, hcne']
  rw [hfilter]
  have hgroup : groupByKey ((bs.map fun b => turnMeta cid b.1.1 b.1.2 b.2).flatten) =
      bs.map fun b => (b.1, turnMeta cid b.1.1 b.1.2 b.2) := by
    have := groupByKey_blocks (bs.map fun b => (b.1, turnMeta cid b.1.1 b.1.2 b.2))
      ?_ ?_ ?_
    · rw [← this]
      congr 1
      rw [List.map_map]
      rfl
    · intro p hp
      obtain ⟨b, hb, rfl⟩ := List.mem_map.mp hp
      intro m hm
      exact turnMeta_key cid b.1.1 b.1.2 b.2 m hm
    · intro p hp
      obtain ⟨b, hb, rfl⟩ := List.mem_map.mp hp
      exact turnMeta_ne_nil cid b.1.1 b.1.2 b.2 (hne b hb)
    · rw [List.map_map]
      simpa using hnodup
  rw [hgroup, List.map_map]
  have hmsg : ∀ b ∈ bs, ((fun g : (Role × ℕ) × List PineconeMetadata =>
      ChatMessage.mk g.1.1 (joinSpace ((g.2.insertionSort chunkIndexLe).map
        fun m => m.content)) g.1.2) ∘
      fun b : (Role × ℕ) × List Str => (b.1, turnMeta cid b.1.1 b.1.2 b.2)) b =
      ChatMessage.mk b.1.1 (joinSpace b.2) b.1.2 := by
    intro b _
    simp only [Function.comp_apply]
    rw [turnMeta_insertionSort, turnMeta_map_content]
  rw [List.map_congr_left hmsg]
  apply List.Sorted.insertionSort_eq
  unfold List.Sorted
  rw [List.pairwise_map]
  exact (List.pairwise_map.mp hsorted).imp fun h => h

theorem getConversationHistory_eq (query : Str → List PineconeMetadata)
    (cid : Str) (h : query cid ≠ []) :
    getConversationHistory query cid = reconstructHistory (query cid) := by
  unfold getConversationHistory
  simp only []
  rw [if_neg (by simp [List.isEmpty_eq_true, h])]

theorem chunkText_content_ne_nil (text : Str) :
    ∀ c ∈ chunkText text 512, c ≠ [] :=
  fun c hc => (chunkText_spec text 512 c hc).1

/-- C3 counterexample: saving the empty user text `""` (with assistant
text `"hi"`) stores no user records, so the faithful retrieval contains
no user message at all — in particular none whose content is the
space-join of the chunks of `""`. -/
theorem roundtrip_empty_text_counterexample :
    ¬ ∃ m ∈ getConversationHistory
        (fun _ => (buildVectors embedQ ("c".toList) ("".toList) ("hi".toList) 0).map
          (fun v => v.metadata)) ("c".toList),
      m.role = Role.user ∧ m.content = joinSpace (chunkText ("".toList) 512) := by
  decide

/-- C3 (amended): provided a saved text is non-empty (produces at least
one chunk), retrieving against a store that faithfully returns exactly
the saved records yields a message of that turn's role whose content is
the turn's chunks joined with single spaces in `chunkIndex` order. -/
theorem save_retrieve_roundtrip {K : Type} (embed : Str → List K)
    (cid u a : Str) (t : ℕ) :
    (chunkText u 512 ≠ [] →
      ∃ m ∈ getConversationHistory
          (fun _ => (buildVectors embed cid u a t).map (fun v => v.metadata)) cid,
        m.role = Role.user ∧ m.content = joinSpace (chunkText u 512)) ∧
    (chunkText a 512 ≠ [] →
      ∃ m ∈ getConversationHistory
          (fun _ => (buildVectors embed cid u a t).map (fun v => v.metadata)) cid,
        m.role = Role.assistant ∧ m.content = joinSpace (chunkText a 512)) := by
  have hmeta := buildVectors_map_metadata embed cid u a t
  constructor
  · intro hu
    have hrec : getConversationHistory
        (fun _ => (buildVectors embed cid u a t).map (fun v => v.metadata)) cid =
        reconstructHistory ((buildVectors embed cid u a t).map (fun v => v.metadata)) := by
      apply getConversationHistory_eq
      rw [hmeta]
      intro he
      exact turnMeta_ne_nil cid .user t (chunkText u 512) hu
        (List.append_eq_nil.mp he).1
    rw [hrec, hmeta]
    by_cases ha : chunkText a 512 = []
    · have hblocks := reconstructHistory_turnBlocks cid
        [((Role.user, t), chunkText u 512)]
        (by intro b hb; rw [List.mem_singleton] at hb; subst hb; exact hu)
        (by intro b hb; rw [List.mem_singleton] at hb; subst hb
            exact chunkText_content_ne_nil u)
        (by simp) (by simp)
      rw [ha] at hmeta ⊢
      have hnil : turnMeta cid .assistant (t + 1) [] = [] := rfl
      rw [hnil, List.append_nil]
      have hfl : ([((Role.user, t), chunkText u 512)].map
          fun b => turnMeta cid b.1.1 b.1.2 b.2).flatten =
          turnMeta cid .user t (chunkText u 512) := by
        simp
      rw [hfl] at hblocks
      rw [hblocks]
      exact ⟨ChatMessage.mk Role.user (joinSpace (chunkText u 512)) t,
        by simp, rfl, rfl⟩
    · have hblocks := reconstructHistory_turnBlocks cid
        [((Role.user, t), chunkText u 512),
          ((Role.assistant, t + 1), chunkText a 512)]
        (by intro b hb
            rcases List.mem_cons.mp hb with rfl | hb
            · exact hu
            · rw [List.mem_singleton] at hb; subst hb; exact ha)
        (by intro b hb
            rcases List.mem_cons.mp hb with rfl | hb
            · exact chunkText_content_ne_nil u
            · rw [List.mem_singleton] at hb; subst hb
              exact chunkText_content_ne_nil a)
        (by simp) (by simp)
      have hfl : ([((Role.user, t), chunkText u 512),
          ((Role.assistant, t + 1), chunkText a 512)].map
          fun b => turnMeta cid b.1.1 b.1.2 b.2).flatten =
          turnMeta cid .user t (chunkText u 512) ++
            turnMeta cid .assistant (t + 1) (chunkText a 512) := by
        simp
      rw [hfl] at hblocks
      rw [hblocks]
      exact ⟨ChatMessage.mk Role.user (joinSpace (chunkText u 512)) t,
        by simp, rfl, rfl⟩
  · intro ha
    have hrec : getConversationHistory
        (fun _ => (buildVectors embed cid u a t).map (fun v => v.metadata)) cid =
        reconstructHistory ((buildVectors embed cid u a t).map (fun v => v.metadata)) := by
      apply getConversationHistory_eq
      rw [hmeta]
      intro he
      exact turnMeta_ne_nil cid .assistant (t + 1) (chunkText a 512) ha
        (List.append_eq_nil.mp he).2
    rw [hrec, hmeta]
    by_cases hu : chunkText u 512 = []
    · have hblocks := reconstructHistory_turnBlocks cid
        [((Role.assistant, t + 1), chunkText a 512)]
        (by intro b hb; rw [List.mem_singleton] at hb; subst hb; exact ha)
        (by intro b hb; rw [List.mem_singleton] at hb; subst hb
            exact chunkText_content_ne_nil a)
        (by simp) (by simp)
      rw [hu] at hmeta ⊢
      have hnil : turnMeta cid .user t [] = [] := rfl
      rw [hnil, List.nil_append]
      have hfl : ([((Role.assistant, t + 1), chunkText a 512)].map
          fun b => turnMeta cid b.1.1 b.1.2 b.2).flatten =
          turnMeta cid .assistant (t + 1) (chunkText a 512) := by
        simp
      rw [hfl] at hblocks
      rw [hblocks]
      exact ⟨ChatMessage.mk Role.assistant (joinSpace (chunkText a 512)) (t + 1),
        by simp, rfl, rfl⟩
    · have hblocks := reconstructHistory_turnBlocks cid
        [((Role.user, t), chunkText u 512),
          ((Role.assistant, t + 1), chunkText a 512)]
        (by intro b hb
            rcases List.mem_cons.mp hb with rfl | hb
            · exact hu
            · rw [List.mem_singleton] at hb; subst hb; exact ha)
        (by intro b hb
            rcases List.mem_cons.mp hb with rfl | hb
            · exact chunkText_content_ne_nil u
            · rw [List.mem_singleton] at hb; subst hb
              exact chunkText_content_ne_nil a)
        (by simp) (by simp)
      have hfl : ([((Role.user, t), chunkText u 512),
          ((Role.assistant, t + 1), chunkText a 512)].map
          fun b => turnMeta cid b.1.1 b.1.2 b.2).flatten =
          turnMeta cid .user t (chunkText u 512) ++
            turnMeta cid .assistant (t + 1) (chunkText a 512) := by
        simp
      rw [hfl] at hblocks
      rw [hblocks]
      exact ⟨ChatMessage.mk Role.assistant (joinSpace (chunkText a 512)) (t + 1),
        by simp, rfl, rfl⟩

/-- Witness for C3: saving the turn `("hi", "yo")` and retrieving yields
the user message `"hi"` and the assistant message `"yo"`. -/
theorem save_retrieve_roundtrip_witness :
    chunkText ("hi".toList) 512 ≠ [] ∧ chunkText ("yo".toList) 512 ≠ [] ∧
    (∃ m ∈ getConversationHistory
        (fun _ => (buildVectors embedQ ("c".toList) ("hi".toList) ("yo".toList) 0).map
          (fun v => v.metadata)) ("c".toList),
      m.role = Role.user ∧ m.content = joinSpace (chunkText ("hi".toList) 512)) ∧
    (∃ m ∈ getConversationHistory
        (fun _ => (buildVectors embedQ ("c".toList) ("hi".toList) ("yo".toList) 0).map
          (fun v => v.metadata)) ("c".toList),
      m.role = Role.assistant ∧ m.content = joinSpace (chunkText ("yo".toList) 512)) :=
  ⟨by decide, by decide,
    (save_retrieve_roundtrip embedQ ("c".toList) ("hi".toList) ("yo".toList) 0).1
      (by decide),
    (save_retrieve_roundtrip embedQ ("c".toList) ("hi".toList) ("yo".toList) 0).2
      (by decide)⟩

theorem turnVectors_map_timestamp {K : Type} (embed : Str → List K) (cid : Str)
    (r : Role) (t : ℕ) (text : Str) :
    (turnVectors embed cid r t text).map (fun v => v.metadata.timestamp) =
      List.replicate (chunkText text 512).length t := by
  simp [turnVectors, List.map_map, Function.comp_def, List.map_const']

/-- C6 counterexample: two saves of the same conversation at the same
millisecond (`t = 0` twice).  The grouping key `(role, timestamp)`
collides across the saves, so the four turns merge into two messages and
no message carries the first user turn's content `"a"` on its own. -/
theorem history_order_collision_counterexample :
    (getConversationHistory (fun _ =>
        ((buildVectors embedQ ("c".toList) ("a".toList) ("b".toList) 0) ++
          (buildVectors embedQ ("c".toList) ("x".toList) ("y".toList) 0)).map
          (fun v => v.metadata)) ("c".toList)).length = 2 ∧
    ¬ ∃ m ∈ getConversationHistory (fun _ =>
        ((buildVectors embedQ ("c".toList) ("a".toList) ("b".toList) 0) ++
          (buildVectors embedQ ("c".toList) ("x".toList) ("y".toList) 0)).map
          (fun v => v.metadata)) ("c".toList),
      m.content = joinSpace (chunkText ("a".toList) 512) := by
  constructor
  · decide
  · decide

/-- C6 (amended): assistant records are stamped `t + 1`, strictly after
the user turn's `t`; and for two sequential saves whose clock readings
are strictly increasing (`t₁ < t₂`), retrieval against the faithful
store returns exactly the four turn messages sorted ascending by
timestamp, each user turn preceding its paired assistant turn.  (If the
two saves read the same millisecond, the grouping keys collide and
same-role turns merge, as the counterexample shows.) -/
theorem history_two_saves_ordered {K : Type} (embed : Str → List K)
    (cid u1 a1 u2 a2 : Str) (t1 t2 : ℕ)
    (hu1 : chunkText u1 512 ≠ []) (ha1 : chunkText a1 512 ≠ [])
    (hu2 : chunkText u2 512 ≠ []) (ha2 : chunkText a2 512 ≠ [])
    (ht : t1 < t2) :
    ((buildVectors embed cid u1 a1 t1).filter
        (fun v => v.metadata.role == Role.assistant)).map
        (fun v => v.metadata.timestamp) =
      List.replicate (chunkText a1 512).length (t1 + 1) ∧
    getConversationHistory (fun _ =>
        ((buildVectors embed cid u1 a1 t1) ++ (buildVectors embed cid u2 a2 t2)).map
          (fun v => v.metadata)) cid =
      [ChatMessage.mk Role.user (joinSpace (chunkText u1 512)) t1,
        ChatMessage.mk Role.assistant (joinSpace (chunkText a1 512)) (t1 + 1),
        ChatMessage.mk Role.user (joinSpace (chunkText u2 512)) t2,
        ChatMessage.mk Role.assistant (joinSpace (chunkText a2 512)) (t2 + 1)] := by
  constructor
  · rw [filter_assistant_buildVectors]
    exact turnVectors_map_timestamp embed cid .assistant (t1 + 1) a1
  · have hmeta : ((buildVectors embed cid u1 a1 t1) ++
        (buildVectors embed cid u2 a2 t2)).map (fun v => v.metadata) =
        turnMeta cid .user t1 (chunkText u1 512) ++
          turnMeta cid .assistant (t1 + 1) (chunkText a1 512) ++
          (turnMeta cid .user t2 (chunkText u2 512) ++
            turnMeta cid .assistant (t2 + 1) (chunkText a2 512)) := by
      rw [List.map_append, buildVectors_map_metadata, buildVectors_map_metadata]
    have hrec : getConversationHistory (fun _ =>
        ((buildVectors embed cid u1 a1 t1) ++ (buildVectors embed cid u2 a2 t2)).map
          (fun v => v.metadata)) cid =
        reconstructHistory (((buildVectors embed cid u1 a1 t1) ++
          (buildVectors embed cid u2 a2 t2)).map (fun v => v.metadata)) := by
      apply getConversationHistory_eq
      rw [hmeta]
      intro he
      rw [List.append_assoc] at he
      exact turnMeta_ne_nil cid .user t1 (chunkText u1 512) hu1
        (List.append_eq_nil.mp he).1
    have hblocks := reconstructHistory_turnBlocks cid
      [((Role.user, t1), chunkText u1 512),
        ((Role.assistant, t1 + 1), chunkText a1 512),
        ((Role.user, t2), chunkText u2 512),
        ((Role.assistant, t2 + 1), chunkText a2 512)]
      (by intro b hb
          rcases List.mem_cons.mp hb with rfl | hb
          · exact hu1
          rcases List.mem_cons.mp hb with rfl | hb
          · exact ha1
          rcases List.mem_cons.mp hb with rfl | hb
          · exact hu2
          rw [List.mem_singleton] at hb; subst hb; exact ha2)
      (by intro b hb
          rcases List.mem_cons.mp hb with rfl | hb
          · exact chunkText_content_ne_nil u1
          rcases List.mem_cons.mp hb with rfl | hb
          · exact chunkText_content_ne_nil a1
          rcases List.mem_cons.mp hb with rfl | hb
          · exact chunkText_content_ne_nil u2
          rw [List.mem_singleton] at hb; subst hb
          exact chunkText_content_ne_nil a2)
      (by simp [Prod.ext_iff]
          omega)
      (by simp [List.pairwise_cons]
          omega)
    have hfl : ([((Role.user, t1), chunkText u1 512),
        ((Role.assistant, t1 + 1), chunkText a1 512),
        ((Role.user, t2), chunkText u2 512),
        ((Role.assistant, t2 + 1), chunkText a2 512)].map
        fun b => turnMeta cid b.1.1 b.1.2 b.2).flatten =
        turnMeta cid .user t1 (chunkText u1 512) ++
          turnMeta cid .assistant (t1 + 1) (chunkText a1 512) ++
          (turnMeta cid .user t2 (chunkText u2 512) ++
            turnMeta cid .assistant (t2 + 1) (chunkText a2 512)) := by
      simp [List.append_assoc]
    rw [hfl] at hblocks
    rw [hrec, hmeta, hblocks]
    rfl

/-- Witness for C6 at two saves of single-character turns with `t₁ = 0 <
5 = t₂`. -/
theorem history_two_saves_ordered_witness :
    chunkText ("a".toList) 512 ≠ [] ∧ chunkText ("b".toList) 512 ≠ [] ∧
    chunkText ("x".toList) 512 ≠ [] ∧ chunkText ("y".toList) 512 ≠ [] ∧
    (0 : ℕ) < 5 ∧
    (((buildVectors embedQ ("c".toList) ("a".toList) ("b".toList) 0).filter
        (fun v => v.metadata.role == Role.assistant)).map
        (fun v => v.metadata.timestamp) =
      List.replicate (chunkText ("b".toList) 512).length 1 ∧
    getConversationHistory (fun _ =>
        ((buildVectors embedQ ("c".toList) ("a".toList) ("b".toList) 0) ++
          (buildVectors embedQ ("c".toList) ("x".toList) ("y".toList) 5)).map
          (fun v => v.metadata)) ("c".toList) =
      [ChatMessage.mk Role.user (joinSpace (chunkText ("a".toList) 512)) 0,
        ChatMessage.mk Role.assistant (joinSpace (chunkText ("b".toList) 512)) 1,
        ChatMessage.mk Role.user (joinSpace (chunkText ("x".toList) 512)) 5,
        ChatMessage.mk Role.assistant (joinSpace (chunkText ("y".toList) 512)) 6]) :=
  ⟨by decide, by decide, by decide, by decide, by decide,
    history_two_saves_ordered embedQ ("c".toList) ("a".toList) ("b".toList)
      ("x".toList) ("y".toList) 0 5 (by decide) (by decide) (by decide) (by decide)
      (by decide)⟩

/-- C4 counterexample: a body with no `prompt` but with
`messages[0].content = "hi"` (a non-empty string, so the claim says
processing proceeds) is answered 400 by the main handler, which checks
only `body.prompt`. -/
theorem handler_messages_only_400_counterexample :
    mainHandlerPost Str
        (RequestBody.mk none (some [BodyMessage.mk (some ("hi".toList))]) none none)
        (UpstreamOutcome.success ("data".toList)) ("fresh".toList) =
      HandlerResult.badRequest ∧
    jsTruthyOpt (edgeResolvePrompt
        (RequestBody.mk none (some [BodyMessage.mk (some ("hi".toList))]) none none)) =
      true := by
  decide

/-- C4 (amended): the main completions handler responds 400
`{error:"Prompt is required"}` exactly when `body.prompt` is falsy
(absent or empty), regardless of `messages[0].content` — the
`prompt || messages[0].content` fallback exists only in the edge handler
variants; when `body.prompt` is truthy, an upstream success yields 200
with the upstream payload plus the resolved `conversationId`. -/
theorem handler_badRequest_iff (P : Type) (b : RequestBody)
    (upstream : UpstreamOutcome P) (freshId : Str) :
    (mainHandlerPost P b upstream freshId = HandlerResult.badRequest ↔
      jsTruthyOpt b.prompt = false) ∧
    (jsTruthyOpt b.prompt = true →
      ∀ payload, upstream = UpstreamOutcome.success payload →
        mainHandlerPost P b upstream freshId =
          HandlerResult.ok payload (resolveConversationId b freshId)) := by
  constructor
  · constructor
    · intro h
      by_cases hp : jsTruthyOpt b.prompt
      · exfalso
        unfold mainHandlerPost at h
        rw [hp] at h
        simp only [Bool.not_true, Bool.false_eq_true, if_false] at h
        cases upstream <;> simp_all
      · exact Bool.not_eq_true _ ▸ (by simpa using hp)
    · intro h
      unfold mainHandlerPost
      rw [h]
      rfl
  · intro hp payload hup
    subst hup
    unfold mainHandlerPost
    rw [hp]
    rfl

/-- Witness for C4: a body with `prompt = "ls"` and a successful
upstream call yields 200 with the payload and the generated id. -/
theorem handler_badRequest_iff_witness :
    (mainHandlerPost Str
        (RequestBody.mk (some ("ls".toList)) none none none)
        (UpstreamOutcome.success ("data".toList)) ("fresh".toList) =
          HandlerResult.badRequest ↔
      jsTruthyOpt (RequestBody.mk (some ("ls".toList)) none none none).prompt =
        false) ∧
    mainHandlerPost Str
        (RequestBody.mk (some ("ls".toList)) none none none)
        (UpstreamOutcome.success ("data".toList)) ("fresh".toList) =
      HandlerResult.ok ("data".toList)
        (resolveConversationId
          (RequestBody.mk (some ("ls".toList)) none none none) ("fresh".toList)) :=
  ⟨(handler_badRequest_iff Str
      (RequestBody.mk (some ("ls".toList)) none none none)
      (UpstreamOutcome.success ("data".toList)) ("fresh".toList)).1,
    (handler_badRequest_iff Str
      (RequestBody.mk (some ("ls".toList)) none none none)
      (UpstreamOutcome.success ("data".toList)) ("fresh".toList)).2
      (by decide) ("data".toList) rfl⟩

end TerminalAI
